import Mathlib

/-!
Shallow embedding of the amdgpu DKMS GPU virtual-memory residency and
eviction subsystem, covering:

* `amdgpu_mn.c` — MMU-notifier contexts (`struct amdgpu_mn`), their interval
  index of `amdgpu_mn_node`s, buffer registration/unregistration, the
  reentrant read lock used by the invalidation callbacks, and the
  per-node invalidation walk;
* `kfd_process.c` — the per-process-device handle table (`alloc_idr`) and the
  per-process interval index (`bo_interval_tree`) over `kfd_bo` records;
* the per-process-device eviction counter (`qcm_process_device.evicted`).

The kernel interval tree is modelled as a list of nodes; the iterator
`interval_tree_iter_first` is modelled as "first node in the list that
overlaps".  Machine integers are modelled as `Nat`/`Int` (no overflow is
relevant to the properties proved here).  External oracles (allocation
success, fence-wait results, `amdgpu_ttm_tt_affect_userptr`) are explicit
boolean/integer parameters.
-/

/-- Buffer-object identifier (stands for a `struct amdgpu_bo *`). -/
abbrev BufId := Nat

/-- `struct amdgpu_mn_node`: an interval-tree node owning the inclusive range
`[start, last]` (`it.start`/`it.last`) and the list `bos` of buffer objects
registered on it (`node->bos`, linked through `bo->mn_list`). -/
structure MnNode where
  start : Nat
  last : Nat
  bos : List BufId
deriving Repr, DecidableEq

/-- Interval overlap test of the kernel interval tree: node `n` is reported by
`interval_tree_iter_first(root, s, e)` iff `n.start ≤ e ∧ s ≤ n.last`
(both ranges inclusive). -/
def MnNode.overlaps (n : MnNode) (s e : Nat) : Bool :=
  decide (n.start ≤ e) && decide (s ≤ n.last)

/-- Extract the first element of a list satisfying `p`, returning it together
with the remaining list (order preserved).  Models one
`interval_tree_iter_first` hit followed by removal of the found node. -/
def extractFirst {α : Type} (p : α → Bool) : List α → Option (α × List α)
  | [] => none
  | a :: rest =>
    if p a then some (a, rest)
    else
      match extractFirst p rest with
      | none => none
      | some (b, r) => some (b, a :: r)

theorem extractFirst_length {α : Type} {p : α → Bool} :
    ∀ {l : List α} {a : α} {rest : List α},
      extractFirst p l = some (a, rest) → rest.length + 1 = l.length := by
  intro l
  induction l with
  | nil => intro a rest h; simp [extractFirst] at h
  | cons x xs ih =>
    intro a rest h
    rw [extractFirst] at h
    split at h
    · obtain ⟨rfl, rfl⟩ := Prod.mk.injEq .. ▸ Option.some.inj h
      simp
    · split at h
      · exact absurd h (by simp)
      · next b r hrec =>
        obtain ⟨rfl, rfl⟩ := Prod.mk.injEq .. ▸ Option.some.inj h
        have := ih hrec
        simp [← this]

theorem extractFirst_none {α : Type} {p : α → Bool} :
    ∀ {l : List α}, extractFirst p l = none → ∀ a ∈ l, p a = false := by
  intro l
  induction l with
  | nil => intro _ a ha; simp at ha
  | cons x xs ih =>
    intro h a ha
    rw [extractFirst] at h
    split at h
    · exact absurd h (by simp)
    · next hx =>
      split at h
      · next hrec =>
        rcases List.mem_cons.mp ha with rfl | hmem
        · exact Bool.eq_false_iff.mpr hx
        · exact ih hrec a hmem
      · exact absurd h (by simp)

theorem extractFirst_prop {α : Type} {p : α → Bool} :
    ∀ {l : List α} {a : α} {rest : List α},
      extractFirst p l = some (a, rest) → p a = true := by
  intro l
  induction l with
  | nil => intro a rest h; simp [extractFirst] at h
  | cons x xs ih =>
    intro a rest h
    rw [extractFirst] at h
    split at h
    · next hx =>
      obtain ⟨rfl, rfl⟩ := Prod.mk.injEq .. ▸ Option.some.inj h
      exact hx
    · split at h
      · exact absurd h (by simp)
      · next b r hrec =>
        obtain ⟨rfl, rfl⟩ := Prod.mk.injEq .. ▸ Option.some.inj h
        exact ih hrec

theorem extractFirst_perm {α : Type} {p : α → Bool} :
    ∀ {l : List α} {a : α} {rest : List α},
      extractFirst p l = some (a, rest) → l.Perm (a :: rest) := by
  intro l
  induction l with
  | nil => intro a rest h; simp [extractFirst] at h
  | cons x xs ih =>
    intro a rest h
    rw [extractFirst] at h
    split at h
    · obtain ⟨rfl, rfl⟩ := Prod.mk.injEq .. ▸ Option.some.inj h
      exact List.Perm.refl _
    · split at h
      · exact absurd h (by simp)
      · next b r hrec =>
        obtain ⟨rfl, rfl⟩ := Prod.mk.injEq .. ▸ Option.some.inj h
        exact ((ih hrec).cons x).trans (List.Perm.swap b x r)

theorem extractFirst_sublist {α : Type} {p : α → Bool} :
    ∀ {l : List α} {a : α} {rest : List α},
      extractFirst p l = some (a, rest) → rest.Sublist l := by
  intro l
  induction l with
  | nil => intro a rest h; simp [extractFirst] at h
  | cons x xs ih =>
    intro a rest h
    rw [extractFirst] at h
    split at h
    · obtain ⟨rfl, rfl⟩ := Prod.mk.injEq .. ▸ Option.some.inj h
      exact List.sublist_cons_self x xs
    · split at h
      · exact absurd h (by simp)
      · next b r hrec =>
        obtain ⟨rfl, rfl⟩ := Prod.mk.injEq .. ▸ Option.some.inj h
        exact List.Sublist.cons₂ x (ih hrec)

/-- The merge loop of `amdgpu_mn_register` (amdgpu_mn.c:495-502):

    while ((it = interval_tree_iter_first(&rmn->objects, addr, end))) {
        node = container_of(it, struct amdgpu_mn_node, it);
        interval_tree_remove(&node->it, &rmn->objects);
        addr = min(it->start, addr);
        end  = max(it->last, end);
        list_splice(&node->bos, &bos);
    }

Repeatedly removes a node overlapping the (growing) range `[s, e]`,
accumulating its `bos` at the front of `acc` (`list_splice` prepends).
`found` records whether at least one node was removed (`node != NULL`
after the loop in the C code).  Returns the remaining tree, the final
range, the accumulated buffer list and the flag.  The recursion is fueled
(each iteration removes one node, so `objs.length` fuel is exactly enough;
fuel `0` coincides with the empty tree, where the iterator finds nothing). -/
def mergeLoopF : Nat → List MnNode → Nat → Nat → List BufId → Bool →
    List MnNode × Nat × Nat × List BufId × Bool
  | 0, objs, s, e, acc, found => (objs, s, e, acc, found)
  | fuel + 1, objs, s, e, acc, found =>
    match extractFirst (fun n => MnNode.overlaps n s e) objs with
    | none => (objs, s, e, acc, found)
    | some (n, rest) =>
      mergeLoopF fuel rest (min n.start s) (max n.last e) (n.bos ++ acc) true

/-- The merge loop of `amdgpu_mn_register`, with fuel instantiated to the
node count of the tree. -/
def mergeLoop (objs : List MnNode) (s e : Nat) (acc : List BufId) (found : Bool) :
    List MnNode × Nat × Nat × List BufId × Bool :=
  mergeLoopF objs.length objs s e acc found

/-- All buffers registered on any node of an interval index (the multiset of
registrations of a context, as a list). -/
def ctxBos (objs : List MnNode) : List BufId := (objs.map MnNode.bos).flatten

/-- Number of occurrences of buffer `b` across all nodes of an index. -/
def ctxCount (objs : List MnNode) (b : BufId) : Nat := (ctxBos objs).count b

theorem ctxCount_nil (b : BufId) : ctxCount [] b = 0 := rfl

theorem ctxCount_cons (n : MnNode) (rest : List MnNode) (b : BufId) :
    ctxCount (n :: rest) b = n.bos.count b + ctxCount rest b := by
  simp [ctxCount, ctxBos]

theorem ctxCount_perm {l1 l2 : List MnNode} (h : l1.Perm l2) (b : BufId) :
    ctxCount l1 b = ctxCount l2 b := by
  unfold ctxCount ctxBos
  rw [List.count_flatten, List.count_flatten]
  exact List.Perm.sum_eq ((h.map MnNode.bos).map (List.count b))

theorem mergeLoopF_succ_none {objs : List MnNode} {s e : Nat}
    (hx : extractFirst (fun n => MnNode.overlaps n s e) objs = none)
    (f : Nat) (acc : List BufId) (found : Bool) :
    mergeLoopF (f + 1) objs s e acc found = (objs, s, e, acc, found) := by
  rw [mergeLoopF, hx]

theorem mergeLoopF_succ_some {objs : List MnNode} {s e : Nat} {n : MnNode}
    {rest : List MnNode}
    (hx : extractFirst (fun m => MnNode.overlaps m s e) objs = some (n, rest))
    (f : Nat) (acc : List BufId) (found : Bool) :
    mergeLoopF (f + 1) objs s e acc found
      = mergeLoopF f rest (min n.start s) (max n.last e) (n.bos ++ acc) true := by
  rw [mergeLoopF, hx]

theorem mergeLoopF_found_true :
    ∀ (fuel : Nat) (objs : List MnNode) (s e : Nat) (acc : List BufId),
      (mergeLoopF fuel objs s e acc true).2.2.2.2 = true := by
  intro fuel
  induction fuel with
  | zero => intro objs s e acc; rfl
  | succ f ih =>
    intro objs s e acc
    rw [mergeLoopF]
    match hx : extractFirst (fun n => MnNode.overlaps n s e) objs with
    | none => rfl
    | some (n, rest) => exact ih rest (min n.start s) (max n.last e) (n.bos ++ acc)

theorem mergeLoopF_found_false :
    ∀ (fuel : Nat) (objs : List MnNode) (s e : Nat) (acc : List BufId) (found : Bool),
      (mergeLoopF fuel objs s e acc found).2.2.2.2 = false →
      mergeLoopF fuel objs s e acc found = (objs, s, e, acc, found) := by
  intro fuel
  cases fuel with
  | zero => intro objs s e acc found _; rfl
  | succ f =>
    intro objs s e acc found h
    rw [mergeLoopF] at h ⊢
    match hx : extractFirst (fun n => MnNode.overlaps n s e) objs with
    | none => rfl
    | some (n, rest) =>
      rw [hx] at h
      rw [mergeLoopF_found_true] at h
      exact absurd h (by simp)

theorem mergeLoopF_no_overlap :
    ∀ (fuel : Nat) (objs : List MnNode) (s e : Nat) (acc : List BufId) (found : Bool),
      objs.length ≤ fuel →
      ∀ n ∈ (mergeLoopF fuel objs s e acc found).1,
        MnNode.overlaps n (mergeLoopF fuel objs s e acc found).2.1
          (mergeLoopF fuel objs s e acc found).2.2.1 = false := by
  intro fuel
  induction fuel with
  | zero =>
    intro objs s e acc found hlen n hn
    have : objs = [] := List.length_eq_zero.mp (Nat.le_zero.mp hlen)
    subst this
    simp [mergeLoopF] at hn
  | succ f ih =>
    intro objs s e acc found hlen n hn
    rw [mergeLoopF] at hn ⊢
    match hx : extractFirst (fun m => MnNode.overlaps m s e) objs with
    | none =>
      rw [hx] at hn
      exact extractFirst_none hx n hn
    | some (m, rest) =>
      rw [hx] at hn
      have hlen2 : rest.length ≤ f := by
        have := extractFirst_length hx
        omega
      exact ih rest (min m.start s) (max m.last e) (m.bos ++ acc) true hlen2 n hn

theorem mergeLoopF_sublist :
    ∀ (fuel : Nat) (objs : List MnNode) (s e : Nat) (acc : List BufId) (found : Bool),
      (mergeLoopF fuel objs s e acc found).1.Sublist objs := by
  intro fuel
  induction fuel with
  | zero => intro objs s e acc found; exact List.Sublist.refl _
  | succ f ih =>
    intro objs s e acc found
    rw [mergeLoopF]
    match hx : extractFirst (fun m => MnNode.overlaps m s e) objs with
    | none => exact List.Sublist.refl _
    | some (m, rest) =>
      exact List.Sublist.trans
        (ih rest (min m.start s) (max m.last e) (m.bos ++ acc) true)
        (extractFirst_sublist hx)

theorem mergeLoopF_count :
    ∀ (fuel : Nat) (objs : List MnNode) (s e : Nat) (acc : List BufId) (found : Bool),
      objs.length ≤ fuel → ∀ b : BufId,
      ctxCount (mergeLoopF fuel objs s e acc found).1 b
          + ((mergeLoopF fuel objs s e acc found).2.2.2.1).count b
        = ctxCount objs b + acc.count b := by
  intro fuel
  induction fuel with
  | zero =>
    intro objs s e acc found hlen b
    have : objs = [] := List.length_eq_zero.mp (Nat.le_zero.mp hlen)
    subst this
    rfl
  | succ f ih =>
    intro objs s e acc found hlen b
    match hx : extractFirst (fun m => MnNode.overlaps m s e) objs with
    | none => rw [mergeLoopF_succ_none hx]
    | some (m, rest) =>
      rw [mergeLoopF_succ_some hx]
      have hlen2 : rest.length ≤ f := by
        have := extractFirst_length hx
        omega
      have hperm := ctxCount_perm (extractFirst_perm hx) b
      rw [ctxCount_cons] at hperm
      have := ih rest (min m.start s) (max m.last e) (m.bos ++ acc) true hlen2 b
      rw [List.count_append] at this
      omega

/-- Core of `amdgpu_mn_register` (amdgpu_mn.c:476-525) after the notifier
context has been obtained, operating on the context's interval index:

* run the merge loop over nodes overlapping `[addr, e]`
  (`e = addr + amdgpu_bo_size(bo) - 1` at the call site);
* if no node was found (`!node`), allocate a fresh one — `allocOk` is the
  `kmalloc` oracle; on failure the function returns `-ENOMEM` with the tree
  exactly as the loop left it (the C code does not re-insert anything on
  this path);
* otherwise (re)initialize the node with the merged range, splice the
  accumulated buffer list into it, add `bo` at the front (`list_add`) and
  insert it into the tree.

The error value carries the tree at the error return so that atomicity can
be stated. -/
def mnRegisterCore (allocOk : Bool) (objs : List MnNode) (b : BufId)
    (addr e : Nat) : Except (Int × List MnNode) (List MnNode) :=
  let r := mergeLoop objs addr e [] false
  if !r.2.2.2.2 && !allocOk then
    Except.error (-12, r.1)
  else
    Except.ok ({ start := r.2.1, last := r.2.2.1, bos := b :: r.2.2.2.1 } :: r.1)

/-- Two interval-tree nodes cover disjoint (non-overlapping) address ranges. -/
def MnNode.rangeDisjoint (m n : MnNode) : Prop := m.last < n.start ∨ n.last < m.start

instance (m n : MnNode) : Decidable (m.rangeDisjoint n) := by
  unfold MnNode.rangeDisjoint; infer_instance

/-- The central invariant of the notifier interval index: no two live nodes
overlap. -/
def NoOverlap (objs : List MnNode) : Prop := objs.Pairwise MnNode.rangeDisjoint

theorem overlaps_false_iff {n : MnNode} {s e : Nat} :
    MnNode.overlaps n s e = false ↔ (e < n.start ∨ n.last < s) := by
  simp only [MnNode.overlaps, Bool.and_eq_false_iff, decide_eq_false_iff_not]
  omega

/-- With a successful node allocation, `mnRegisterCore` always succeeds. -/
theorem mnRegisterCore_ok (objs : List MnNode) (b : BufId) (addr e : Nat) :
    mnRegisterCore true objs b addr e =
      Except.ok ({ start := (mergeLoop objs addr e [] false).2.1,
                   last := (mergeLoop objs addr e [] false).2.2.1,
                   bos := b :: (mergeLoop objs addr e [] false).2.2.2.1 }
                 :: (mergeLoop objs addr e [] false).1) := by
  unfold mnRegisterCore
  simp

/-- A successful registration preserves the no-two-overlapping-nodes
invariant: the merge loop removed every node overlapping the final merged
range, so the freshly inserted node is disjoint from every survivor. -/
theorem mnRegisterCore_no_overlap {allocOk : Bool} {objs objs' : List MnNode}
    {b : BufId} {addr e : Nat} (hno : NoOverlap objs)
    (h : mnRegisterCore allocOk objs b addr e = Except.ok objs') :
    NoOverlap objs' := by
  simp only [mnRegisterCore] at h
  split at h
  · exact absurd h (by simp)
  · have hrest : NoOverlap (mergeLoop objs addr e [] false).1 :=
      List.Pairwise.sublist (mergeLoopF_sublist objs.length objs addr e [] false) hno
    have hnew : ∀ n ∈ (mergeLoop objs addr e [] false).1,
        MnNode.rangeDisjoint
          { start := (mergeLoop objs addr e [] false).2.1,
            last := (mergeLoop objs addr e [] false).2.2.1,
            bos := b :: (mergeLoop objs addr e [] false).2.2.2.1 } n := by
      intro n hn
      have := mergeLoopF_no_overlap objs.length objs addr e [] false (Nat.le_refl _) n hn
      exact overlaps_false_iff.mp this
    have := Except.ok.inj h
    rw [← this]
    exact List.pairwise_cons.mpr ⟨hnew, hrest⟩

/-- One (successful) `amdgpu_mn_register` call on a context's interval index:
`op = (bo, addr, size)`, `end = addr + size - 1` as computed at
amdgpu_mn.c:478. -/
def regStep (objs : List MnNode) (op : BufId × Nat × Nat) : List MnNode :=
  match mnRegisterCore true objs op.1 op.2.1 (op.2.1 + op.2.2 - 1) with
  | Except.ok objs' => objs'
  | Except.error err => err.2

/-- A finite sequence of `amdgpu_mn_register` calls on one context. -/
def regMany (objs : List MnNode) (ops : List (BufId × Nat × Nat)) : List MnNode :=
  ops.foldl regStep objs

theorem regStep_no_overlap {objs : List MnNode} (op : BufId × Nat × Nat)
    (hno : NoOverlap objs) : NoOverlap (regStep objs op) := by
  unfold regStep
  rw [mnRegisterCore_ok]
  exact mnRegisterCore_no_overlap hno (mnRegisterCore_ok ..)

theorem regMany_no_overlap {objs : List MnNode}
    (ops : List (BufId × Nat × Nat)) (hno : NoOverlap objs) :
    NoOverlap (regMany objs ops) := by
  induction ops generalizing objs with
  | nil => exact hno
  | cons op ops ih => exact ih (regStep_no_overlap op hno)

/-- Claim C1: for every finite sequence of (successful) `amdgpu_mn_register`
calls on one notifier context's interval index, each with a non-empty range
(`end = start + size - 1`), the index never contains two overlapping nodes;
register removes every node overlapping the requested range and inserts a
single node whose range is the union of the removed ranges and the request,
carrying the removed registrations plus the new buffer.  Concretely,
from nodes `[0,999] ↦ {1}` and `[1000,1999] ↦ {2}`, registering buffer `3`
at `[500,1499]` leaves exactly one node `[0,1999]` with registrations
`{1,2,3}`. -/
theorem amdgpu_mn_register_no_overlap :
    (∀ ops : List (BufId × Nat × Nat), (∀ op ∈ ops, 1 ≤ op.2.2) →
      NoOverlap (regMany [] ops)) ∧
    regMany [] [(1, 0, 1000), (2, 1000, 1000), (3, 500, 1000)]
      = [{ start := 0, last := 1999, bos := [3, 1, 2] }] ∧
    (∀ x, x ∈ ({ start := 0, last := 1999, bos := [3, 1, 2] } : MnNode).bos
      ↔ (x = 1 ∨ x = 2 ∨ x = 3)) := by
  refine ⟨fun ops _ => regMany_no_overlap ops (List.Pairwise.nil), by decide, ?_⟩
  intro x
  simp only [List.mem_cons, List.not_mem_nil, or_false]
  tauto

/-- Witness for `amdgpu_mn_register_no_overlap`: the non-empty-range
hypothesis discharged on the three-call scenario itself. -/
theorem amdgpu_mn_register_no_overlap_witness :
    (∀ op ∈ ([(1, 0, 1000), (2, 1000, 1000), (3, 500, 1000)] :
        List (BufId × Nat × Nat)), 1 ≤ op.2.2) ∧
    NoOverlap (regMany [] [(1, 0, 1000), (2, 1000, 1000), (3, 500, 1000)]) :=
  ⟨by decide, amdgpu_mn_register_no_overlap.1
    [(1, 0, 1000), (2, 1000, 1000), (3, 500, 1000)] (by decide)⟩

/-- The reentrant read-lock state of a notifier context (`struct amdgpu_mn`):
`recursion` is the atomic recursion counter, `readHeld` records whether the
context's `rw_semaphore` is currently held for read
(`down_read_non_owner` taken, not yet released). -/
structure RmnLock where
  recursion : Nat
  readHeld : Bool
deriving Repr, DecidableEq

/-- `amdgpu_mn_read_lock` (amdgpu_mn.c:146-152): increment the recursion
counter; on the 1 → transition take the semaphore for read. -/
def amdgpu_mn_read_lock (l : RmnLock) : RmnLock :=
  let r := l.recursion + 1
  { recursion := r, readHeld := if r = 1 then true else l.readHeld }

/-- `amdgpu_mn_read_unlock` (amdgpu_mn.c:161-165): decrement the recursion
counter; on the → 0 transition release the semaphore. -/
def amdgpu_mn_read_unlock (l : RmnLock) : RmnLock :=
  let r := l.recursion - 1
  { recursion := r, readHeld := if r = 0 then false else l.readHeld }

/-- Notifier context kind (`enum amdgpu_mn_type`). -/
inductive MnType where
  | gfx
  | hsa
deriving Repr, DecidableEq

/-- Lock effect of `amdgpu_mn_invalidate_range_start_gfx`
(amdgpu_mn.c:250-272): takes the read lock and returns without releasing
it. -/
def amdgpu_mn_invalidate_range_start_gfx_lock (l : RmnLock) : RmnLock :=
  amdgpu_mn_read_lock l

/-- Lock effect of `amdgpu_mn_invalidate_range_start_hsa`
(amdgpu_mn.c:306-335): takes the read lock, walks the overlapping nodes
evicting affected user pointers, and returns without releasing the lock. -/
def amdgpu_mn_invalidate_range_start_hsa_lock (l : RmnLock) : RmnLock :=
  amdgpu_mn_read_lock l

/-- Lock effect of `amdgpu_mn_invalidate_range_end` (amdgpu_mn.c:284-292):
releases the read lock. -/
def amdgpu_mn_invalidate_range_end_lock (l : RmnLock) : RmnLock :=
  amdgpu_mn_read_unlock l

/-- The `invalidate_range_start` entries of the `amdgpu_mn_ops` table
(amdgpu_mn.c:367-384). -/
def rangeStartLockEffect : MnType → RmnLock → RmnLock
  | MnType.gfx => amdgpu_mn_invalidate_range_start_gfx_lock
  | MnType.hsa => amdgpu_mn_invalidate_range_start_hsa_lock

/-- The `invalidate_range_end` entries of the `amdgpu_mn_ops` table: both the
GFX and the HSA slot install the same `amdgpu_mn_invalidate_range_end`. -/
def rangeEndLockEffect : MnType → RmnLock → RmnLock
  | MnType.gfx => amdgpu_mn_invalidate_range_end_lock
  | MnType.hsa => amdgpu_mn_invalidate_range_end_lock

/-- Counterexample to claim C4: for a compute-kind (HSA) context the read
lock is NOT released before the `invalidate_range_start` callback returns.
Starting from the idle lock state (recursion 0, semaphore free), after
`amdgpu_mn_invalidate_range_start_hsa` the recursion counter is 1 and the
semaphore is still held for read; it is only dropped by the matching
`invalidate_range_end`. -/
theorem hsa_range_start_returns_with_lock_held :
    (rangeStartLockEffect MnType.hsa { recursion := 0, readHeld := false }).readHeld
        = true ∧
    ¬ (rangeStartLockEffect MnType.hsa { recursion := 0, readHeld := false })
        = { recursion := 0, readHeld := false } := by
  decide

/-- Claim C4 (amended): for BOTH context kinds, GFX and HSA, the read lock
taken at the "start" notification is still held when the start callback
returns and is released only at the matching "range end" notification: the
`amdgpu_mn_ops` table installs a lock-taking `invalidate_range_start` and
the common lock-releasing `amdgpu_mn_invalidate_range_end` for both kinds,
and on a well-formed lock state (semaphore held iff recursion positive) the
end callback exactly undoes the start callback. -/
theorem invalidate_range_lock_two_phase (t : MnType) (l : RmnLock)
    (hwf : l.readHeld = decide (0 < l.recursion)) :
    (rangeStartLockEffect t l).recursion = l.recursion + 1 ∧
    (rangeStartLockEffect t l).readHeld = true ∧
    rangeEndLockEffect t (rangeStartLockEffect t l) = l := by
  have hstart : rangeStartLockEffect t l = amdgpu_mn_read_lock l := by
    cases t <;> rfl
  have hend : ∀ m, rangeEndLockEffect t m = amdgpu_mn_read_unlock m := by
    intro m; cases t <;> rfl
  rw [hstart, hend]
  cases l with
  | mk r h =>
    simp only at hwf
    rw [hwf]
    simp only [amdgpu_mn_read_lock, amdgpu_mn_read_unlock]
    refine ⟨by simp, ?_, ?_⟩
    · cases r with
      | zero => simp
      | succ k =>
        have h1 : ¬ (k + 1 + 1 = 1) := by omega
        simp [h1]
    · cases r with
      | zero => simp
      | succ k =>
        have h1 : ¬ (k + 1 + 1 = 1) := by omega
        have h2 : k + 1 + 1 - 1 = k + 1 := by omega
        have h3 : ¬ (k + 1 = 0) := by omega
        simp [h1, h2, h3]

/-- Witness for `invalidate_range_lock_two_phase` at the idle lock state of
an HSA context. -/
theorem invalidate_range_lock_two_phase_witness :
    ({ recursion := 0, readHeld := false } : RmnLock).readHeld
        = decide (0 < ({ recursion := 0, readHeld := false } : RmnLock).recursion) ∧
    ((rangeStartLockEffect MnType.hsa { recursion := 0, readHeld := false }).recursion
        = 0 + 1 ∧
     (rangeStartLockEffect MnType.hsa { recursion := 0, readHeld := false }).readHeld
        = true ∧
     rangeEndLockEffect MnType.hsa
        (rangeStartLockEffect MnType.hsa { recursion := 0, readHeld := false })
        = { recursion := 0, readHeld := false }) :=
  ⟨by decide, invalidate_range_lock_two_phase MnType.hsa
    { recursion := 0, readHeld := false } (by decide)⟩

/-- A buffer object as seen by the invalidation walk
(`amdgpu_mn_invalidate_node`): `affected` is the (oracle) result of
`amdgpu_ttm_tt_affect_userptr(bo->tbo.ttm, start, end)` for the delivered
range, `waitResult` the (oracle) result of
`kcl_reservation_object_wait_timeout_rcu(bo->tbo.resv, true, false,
MAX_SCHEDULE_TIMEOUT)` (negative = error, 0 = timeout, positive =
success). -/
structure WalkBo where
  id : BufId
  affected : Bool
  waitResult : Int
deriving Repr, DecidableEq

/-- Result of one invalidation walk over a node's buffer list: the buffers
whose backing pages were marked stale (`amdgpu_ttm_tt_mark_user_pages`) and
the `DRM_ERROR` log entries emitted for failed fence waits.  The C function
returns `void`: there is no error channel. -/
structure InvalidateResult where
  marked : List BufId
  logged : List (Int × BufId)
deriving Repr, DecidableEq

/-- `amdgpu_mn_invalidate_node` (amdgpu_mn.c:175-194): for every buffer on
the node's list, skip it if the delivered range does not affect its user
pointer; otherwise wait for all fences on its reservation object
(non-interruptible, unbounded timeout), log a `DRM_ERROR` if the wait
returned an error or zero, and mark the user pages stale in every case. -/
def amdgpu_mn_invalidate_node : List WalkBo → InvalidateResult
  | [] => { marked := [], logged := [] }
  | bo :: rest =>
    let tail := amdgpu_mn_invalidate_node rest
    if !bo.affected then tail
    else
      { marked := bo.id :: tail.marked,
        logged := (if bo.waitResult ≤ 0 then [(bo.waitResult, bo.id)] else [])
                    ++ tail.logged }

/-- Claim C8: during one invalidation walk, a fence-wait failure (error or
zero result) is only logged: the failing buffer's pages are still marked
stale, every subsequent affected buffer is still processed and marked, and
the walk completes with no hard error — the marked set is exactly the
affected buffers, independent of the fence results, and the log holds
exactly the affected buffers whose wait failed. -/
theorem amdgpu_mn_invalidate_node_fence_failure_tolerated
    (bos : List WalkBo) :
    (amdgpu_mn_invalidate_node bos).marked
        = (bos.filter (fun bo => bo.affected)).map WalkBo.id ∧
    (amdgpu_mn_invalidate_node bos).logged
        = (bos.filter (fun bo => bo.affected && decide (bo.waitResult ≤ 0))).map
            (fun bo => (bo.waitResult, bo.id)) := by
  induction bos with
  | nil => exact ⟨rfl, rfl⟩
  | cons bo rest ih =>
    rw [amdgpu_mn_invalidate_node]
    by_cases ha : bo.affected
    · by_cases hw : bo.waitResult ≤ 0
      · simp [ha, hw, ih.1, ih.2]
      · simp [ha, hw, ih.1, ih.2]
    · simp [ha, ih.1, ih.2]

/-- `struct qcm_process_device` (kfd_priv.h), reduced to the field relevant
here: `evicted` is the per-process-device eviction counter
("eviction counter, 0=active"). -/
structure QcmProcessDevice where
  evicted : Nat
deriving Repr, DecidableEq

/-- `kfd_create_process_device_data` initializes `pdd->qpd.evicted = 0`
(kfd_process.c:716): a fresh process-device starts fully active. -/
def initQpd : QcmProcessDevice := { evicted := 0 }

/-- Modelled from the spec: the eviction entry point
(`kfd_process_evict_queues` / the body of `kfd_evict_bo_worker`) is not
under src/ — only the `qcm_process_device.evicted` declaration
("eviction counter, 0=active") and its initialization are.  Spec §4.4:
the counter "is incremented on entering eviction". -/
def evictProcess (q : QcmProcessDevice) : QcmProcessDevice :=
  { evicted := q.evicted + 1 }

/-- Modelled from the spec: the restore entry point
(`kfd_process_restore_queues` / the body of `kfd_restore_bo_worker`) is not
under src/.  Spec §4.4: the counter is "decremented on successful restore"
and restore "must be idempotent — calling restore on an already-active
process is a no-op". -/
def restoreProcess (q : QcmProcessDevice) : QcmProcessDevice :=
  if q.evicted = 0 then q else { evicted := q.evicted - 1 }

/-- Whether a process-device is fully active (spec §4.4: "0 = fully active;
>0 = some eviction in flight"). -/
def qpdActive (q : QcmProcessDevice) : Bool := decide (q.evicted = 0)

/-- Claim C9: the eviction counter starts at 0 (fully active); every evict
increments it and every successful restore of a non-active process
decrements it; after two evict calls (re-entrant trigger) exactly two
restores return the counter to 0 and the Active state — one is not
enough — and restore on an already-active process is a no-op. -/
theorem kfd_eviction_counter_two_phase :
    initQpd.evicted = 0 ∧
    (∀ q : QcmProcessDevice, (evictProcess q).evicted = q.evicted + 1) ∧
    (∀ q : QcmProcessDevice, q.evicted ≠ 0 →
      (restoreProcess q).evicted = q.evicted - 1) ∧
    (evictProcess (evictProcess initQpd)).evicted = 2 ∧
    restoreProcess (restoreProcess (evictProcess (evictProcess initQpd)))
        = initQpd ∧
    qpdActive (restoreProcess (restoreProcess
        (evictProcess (evictProcess initQpd)))) = true ∧
    qpdActive (restoreProcess (evictProcess (evictProcess initQpd))) = false ∧
    restoreProcess initQpd = initQpd := by
  refine ⟨rfl, fun q => rfl, fun q hq => ?_, by decide, by decide, by decide,
    by decide, by decide⟩
  unfold restoreProcess
  simp [hq]

/-- Witness for `kfd_eviction_counter_two_phase`: its only hypothesis-bearing
conjunct applied at a once-evicted process-device. -/
theorem kfd_eviction_counter_two_phase_witness :
    (evictProcess initQpd).evicted ≠ 0 ∧
    (restoreProcess (evictProcess initQpd)).evicted
        = (evictProcess initQpd).evicted - 1 :=
  ⟨by decide, kfd_eviction_counter_two_phase.2.2.1 (evictProcess initQpd)
    (by decide)⟩

/-- `struct kfd_bo` (one BoRecord): the opaque memory object reference
(`void *mem`, as an id), the interval-tree range `it.start`/`it.last`, and
the optional IPC object reference. -/
structure KfdBo where
  mem : Nat
  start : Nat
  last : Nat
  ipcObj : Option Nat
deriving Repr, DecidableEq

/-- `kfd_process_device_find_bo` (kfd_process.c): reject negative handles,
otherwise an `idr_find` in `pdd->alloc_idr` (modelled as an association
list keyed by handle), returning NULL (`none`) when the handle is not
present. -/
def kfd_process_device_find_bo (allocIdr : List (Nat × KfdBo))
    (handle : Int) : Option KfdBo :=
  if handle < 0 then none
  else List.lookup handle.toNat allocIdr

/-- `kfd_process_device_translate_handle` (kfd_process.c):

    buf_obj = kfd_process_device_find_bo(pdd, handle);
    return buf_obj->mem;

The dereference `buf_obj->mem` is unconditional; when `find_bo` returned
NULL it is a NULL-pointer dereference, modelled as `Except.error ()`
(kernel fault).  No log is emitted on this path. -/
def kfd_process_device_translate_handle (allocIdr : List (Nat × KfdBo))
    (handle : Int) : Except Unit Nat :=
  match kfd_process_device_find_bo allocIdr handle with
  | none => Except.error ()
  | some b => Except.ok b.mem

/-- A sample live BoRecord used in concrete runs. -/
def exampleKfdBo : KfdBo := { mem := 42, start := 0, last := 4095, ipcObj := none }

/-- Claim C2 is violated by the code: `kfd_process_device_find_bo` does
return NULL for a stale, never-issued or negative handle, but
`kfd_process_device_translate_handle` dereferences that NULL result
(`buf_obj->mem`) without a check and without logging, so the caller faults
instead of observing a null "object already released" result.  A live
handle still translates to its memory object. -/
theorem kfd_translate_handle_faults_on_stale_handle :
    kfd_process_device_find_bo [] 5 = none ∧
    kfd_process_device_translate_handle [] 5 = Except.error () ∧
    kfd_process_device_find_bo [(3, exampleKfdBo)] 7 = none ∧
    kfd_process_device_translate_handle [(3, exampleKfdBo)] 7
        = Except.error () ∧
    kfd_process_device_find_bo [(3, exampleKfdBo)] (-1) = none ∧
    kfd_process_device_translate_handle [(3, exampleKfdBo)] (-1)
        = Except.error () ∧
    kfd_process_device_translate_handle [(3, exampleKfdBo)] 3
        = Except.ok 42 :=
  ⟨rfl, rfl, rfl, rfl, rfl, rfl, rfl⟩

/-- State touched by `kfd_process_device_create_obj_handle`: the per-process
interval index `p->bo_interval_tree`, the per-process-device handle table
`pdd->alloc_idr` with its next-free-handle cursor, and (for stating the
dangling-node bug) the list of records passed to `kfree`. -/
structure KfdProcState where
  boIntervalTree : List KfdBo
  allocIdr : List (Nat × KfdBo)
  nextHandle : Nat
  freed : List KfdBo
deriving Repr, DecidableEq

/-- `kfd_process_device_create_obj_handle` (kfd_process.c:910-947):

* `kzalloc` the record (`kzallocOk` oracle); on failure return `-ENOMEM`
  with nothing changed;
* set `it.start = start`, `it.last = start + length - 1` and
  `interval_tree_insert` the record into `p->bo_interval_tree`;
* `idr_alloc` a handle (`idrOk` oracle); on failure (`handle < 0`) the C
  code does `kfree(buf_obj)` and returns the negative handle — WITHOUT
  removing the record from the interval tree. -/
def kfd_process_device_create_obj_handle (kzallocOk idrOk : Bool)
    (st : KfdProcState) (mem start length : Nat) (ipcObj : Option Nat) :
    Int × KfdProcState :=
  if !kzallocOk then (-12, st)
  else
    let buf : KfdBo :=
      { mem := mem, start := start, last := start + length - 1, ipcObj := ipcObj }
    let st1 := { st with boIntervalTree := buf :: st.boIntervalTree }
    if idrOk then
      (Int.ofNat st.nextHandle,
       { st1 with allocIdr := (st.nextHandle, buf) :: st.allocIdr,
                  nextHandle := st.nextHandle + 1 })
    else
      (-28, { st1 with freed := buf :: st1.freed })

/-- The empty per-process state. -/
def emptyKfdProcState : KfdProcState :=
  { boIntervalTree := [], allocIdr := [], nextHandle := 0, freed := [] }

/-- Claim C3 is violated by the code: when `idr_alloc` fails inside
`kfd_process_device_create_obj_handle`, the error is returned synchronously
but the interval index is NOT left unchanged — the record was already
inserted into `p->bo_interval_tree` and is then `kfree`d without
`interval_tree_remove`, so a freed BoRecord's range stays in the index with
no live handle referring to it.  (The `kzalloc` failure path, by contrast,
really leaves the state unchanged.) -/
theorem kfd_create_obj_handle_dangling_on_idr_failure :
    (kfd_process_device_create_obj_handle true false emptyKfdProcState
        7 4096 4096 none).1 < 0 ∧
    (kfd_process_device_create_obj_handle true false emptyKfdProcState
        7 4096 4096 none).2.boIntervalTree
      = [{ mem := 7, start := 4096, last := 8191, ipcObj := none }] ∧
    (kfd_process_device_create_obj_handle true false emptyKfdProcState
        7 4096 4096 none).2.allocIdr = [] ∧
    { mem := 7, start := 4096, last := 8191, ipcObj := none }
      ∈ (kfd_process_device_create_obj_handle true false emptyKfdProcState
        7 4096 4096 none).2.freed ∧
    (kfd_process_device_create_obj_handle true false emptyKfdProcState
        7 4096 4096 none).2 ≠ emptyKfdProcState ∧
    kfd_process_device_create_obj_handle false false emptyKfdProcState
        7 4096 4096 none = (-12, emptyKfdProcState) := by
  decide


theorem extractFirst_eq_none {α : Type} {p : α → Bool} :
    ∀ {l : List α}, l.filter p = [] → extractFirst p l = none := by
  intro l
  induction l with
  | nil => intro _; rfl
  | cons x xs ih =>
    intro h
    rw [List.filter_cons] at h
    by_cases hx : p x
    · rw [if_pos hx] at h
      exact absurd h (by simp)
    · rw [if_neg hx] at h
      rw [extractFirst]
      simp [hx, ih h]

theorem extractFirst_filter_some {α : Type} {p : α → Bool} :
    ∀ {l : List α} {a : α} {rest : List α},
      extractFirst p l = some (a, rest) → l.filter p = a :: rest.filter p := by
  intro l
  induction l with
  | nil => intro a rest h; simp [extractFirst] at h
  | cons x xs ih =>
    intro a rest h
    rw [extractFirst] at h
    split at h
    · next hx =>
      obtain ⟨rfl, rfl⟩ := Prod.mk.injEq .. ▸ Option.some.inj h
      rw [List.filter_cons, if_pos hx]
    · next hx =>
      split at h
      · exact absurd h (by simp)
      · next b r hrec =>
        obtain ⟨rfl, rfl⟩ := Prod.mk.injEq .. ▸ Option.some.inj h
        rw [List.filter_cons, if_neg hx, ih hrec, List.filter_cons, if_neg hx]

/-- Interval-tree overlap test for BoRecords, as in `kfd_process.c`'s use of
`interval_tree_iter_first(&p->bo_interval_tree, start_addr, last_addr)`. -/
def KfdBo.overlapsR (b : KfdBo) (s e : Nat) : Bool :=
  decide (b.start ≤ e) && decide (s ≤ b.last)

/-- `kfd_process_find_bo_from_interval` (kfd_process.c:971-995): look up the
first BoRecord overlapping `[s, e]` in the process interval index; if none,
log one `pr_err` ("does not relate to an existing buffer") and return NULL;
if a second overlapping record exists (`interval_tree_iter_next`), log one
`pr_err` ("spans more than a single BO") and return NULL; otherwise return
the unique record.  Result: the record (or `none`) paired with the number
of `pr_err` logs emitted. -/
def kfd_process_find_bo_from_interval (tree : List KfdBo) (s e : Nat) :
    Option KfdBo × Nat :=
  match extractFirst (fun b => KfdBo.overlapsR b s e) tree with
  | none => (none, 1)
  | some (b, rest) =>
    if rest.any (fun x => KfdBo.overlapsR x s e) then (none, 1)
    else (some b, 0)

/-- Claim C6: `find_by_range` returns the unique overlapping BoRecord (with
no error logged) when exactly one live record overlaps the queried range,
and returns NULL with exactly one logged error when zero, or two or more,
records overlap. -/
theorem kfd_find_bo_from_interval_unique (tree : List KfdBo) (s e : Nat) :
    (∀ b : KfdBo, tree.filter (fun x => KfdBo.overlapsR x s e) = [b] →
      kfd_process_find_bo_from_interval tree s e = (some b, 0)) ∧
    (tree.filter (fun x => KfdBo.overlapsR x s e) = [] →
      kfd_process_find_bo_from_interval tree s e = (none, 1)) ∧
    (2 ≤ (tree.filter (fun x => KfdBo.overlapsR x s e)).length →
      kfd_process_find_bo_from_interval tree s e = (none, 1)) := by
  refine ⟨?_, ?_, ?_⟩
  · intro b hb
    cases hext : extractFirst (fun x => KfdBo.overlapsR x s e) tree with
    | none =>
      have hnil : tree.filter (fun x => KfdBo.overlapsR x s e) = [] := by
        rw [List.filter_eq_nil_iff]
        intro x hxm
        simp [extractFirst_none hext x hxm]
      rw [hnil] at hb
      exact absurd hb (by simp)
    | some pr =>
      obtain ⟨a, rest⟩ := pr
      have hfil := extractFirst_filter_some hext
      rw [hb] at hfil
      have ha : a = b := ((List.cons.injEq .. ▸ hfil).1).symm
      have hrest : rest.filter (fun x => KfdBo.overlapsR x s e) = [] :=
        ((List.cons.injEq .. ▸ hfil).2).symm
      have hany : rest.any (fun x => KfdBo.overlapsR x s e) = false := by
        rw [List.any_eq_false]
        intro x hxm
        have := List.filter_eq_nil_iff.mp hrest x hxm
        simp [this]
      simp [kfd_process_find_bo_from_interval, hext, hany, ha]
  · intro hnil
    simp [kfd_process_find_bo_from_interval, extractFirst_eq_none hnil]
  · intro hlen
    cases hext : extractFirst (fun x => KfdBo.overlapsR x s e) tree with
    | none =>
      have hnil : tree.filter (fun x => KfdBo.overlapsR x s e) = [] := by
        rw [List.filter_eq_nil_iff]
        intro x hxm
        simp [extractFirst_none hext x hxm]
      rw [hnil] at hlen
      exact absurd hlen (by simp)
    | some pr =>
      obtain ⟨a, rest⟩ := pr
      have hfil := extractFirst_filter_some hext
      rw [hfil] at hlen
      have hne : rest.filter (fun x => KfdBo.overlapsR x s e) ≠ [] := by
        intro hcon
        rw [hcon] at hlen
        simp at hlen
      have hany : rest.any (fun x => KfdBo.overlapsR x s e) = true := by
        rw [List.any_eq_true]
        match hr : rest.filter (fun x => KfdBo.overlapsR x s e) with
        | [] => exact absurd hr hne
        | y :: ys =>
          have hy : y ∈ rest.filter (fun x => KfdBo.overlapsR x s e) := by
            rw [hr]; exact List.mem_cons_self y ys
          have := List.mem_filter.mp hy
          exact ⟨y, this.1, this.2⟩
      simp [kfd_process_find_bo_from_interval, hext, hany]

/-- Witness for `kfd_find_bo_from_interval_unique`: a one-record index
queried with a range wholly inside the record returns that record with no
error, and queried outside returns NULL with one logged error. -/
theorem kfd_find_bo_from_interval_unique_witness :
    ([exampleKfdBo].filter (fun x => KfdBo.overlapsR x 100 200)
        = [exampleKfdBo]) ∧
    kfd_process_find_bo_from_interval [exampleKfdBo] 100 200
        = (some exampleKfdBo, 0) ∧
    ([exampleKfdBo].filter (fun x => KfdBo.overlapsR x 5000 6000) = []) ∧
    kfd_process_find_bo_from_interval [exampleKfdBo] 5000 6000
        = (none, 1) :=
  ⟨by decide,
   (kfd_find_bo_from_interval_unique [exampleKfdBo] 100 200).1 exampleKfdBo
     (by decide),
   by decide,
   (kfd_find_bo_from_interval_unique [exampleKfdBo] 5000 6000).2.1 (by decide)⟩

/-- The index mutation of `amdgpu_mn_unregister` (amdgpu_mn.c:548-561) on the
context's node list: delete `bo` from its node's `bos` list
(`list_del_init(&bo->mn_list)`); if the node's list became empty
(`list_empty(head)`), remove the node from the interval tree and free it.
The C code reaches the node through `bo->mn_list`; here it is located as
the first node whose registration list contains `b`. -/
def unregObjects : List MnNode → BufId → List MnNode
  | [], _ => []
  | n :: rest, b =>
    if b ∈ n.bos then
      if (n.bos.erase b).isEmpty then rest
      else { n with bos := n.bos.erase b } :: rest
    else n :: unregObjects rest b

theorem unregObjects_count_self :
    ∀ (objs : List MnNode) (b : BufId), ctxCount objs b ≤ 1 →
      ctxCount (unregObjects objs b) b = 0 := by
  intro objs
  induction objs with
  | nil => intro b _; rfl
  | cons n rest ih =>
    intro b hle
    rw [ctxCount_cons] at hle
    rw [unregObjects]
    by_cases hb : b ∈ n.bos
    · have hpos : 1 ≤ n.bos.count b := List.one_le_count_iff.mpr hb
      have hrest : ctxCount rest b = 0 := by omega
      rw [if_pos hb]
      by_cases hemp : (n.bos.erase b).isEmpty
      · rw [if_pos hemp]; exact hrest
      · rw [if_neg hemp, ctxCount_cons]
        have : (n.bos.erase b).count b = n.bos.count b - 1 :=
          List.count_erase_self b n.bos
        simp only []
        omega
    · have hzero : n.bos.count b = 0 := List.count_eq_zero.mpr hb
      rw [if_neg hb, ctxCount_cons, ih b (by omega), hzero]

theorem unregObjects_count_other :
    ∀ (objs : List MnNode) (b b' : BufId), b' ≠ b →
      ctxCount (unregObjects objs b) b' = ctxCount objs b' := by
  intro objs
  induction objs with
  | nil => intro b b' _; rfl
  | cons n rest ih =>
    intro b b' hne
    rw [unregObjects]
    by_cases hb : b ∈ n.bos
    · rw [if_pos hb]
      have hcnt : (n.bos.erase b).count b' = n.bos.count b' :=
        List.count_erase_of_ne hne n.bos
      by_cases hemp : (n.bos.erase b).isEmpty
      · rw [if_pos hemp]
        have hnil : n.bos.erase b = [] := List.isEmpty_iff.mp hemp
        have : n.bos.count b' = 0 := by
          rw [← hcnt, hnil]; rfl
        rw [ctxCount_cons, this, Nat.zero_add]
      · rw [if_neg hemp, ctxCount_cons, ctxCount_cons]
        simp only []
        rw [hcnt]
    · rw [if_neg hb, ctxCount_cons, ctxCount_cons, ih b b' hne]

/-- The world of notifier contexts: the registry of contexts (the
`adev->mn_hash` hash table keyed by `(mm, type)`, modelled as a total map
from context key to that context's interval index — an absent context is
the empty index) and the back-reference field `bo->mn` of every buffer
object (`some c` = tracked by context `c`, `none` = not tracked). -/
structure MnWorld where
  ctxs : Nat → List MnNode
  boMn : BufId → Option Nat

/-- The operations of the notifier context lifecycle. -/
inductive MnOp where
  | reg (c : Nat) (b : BufId) (addr size : Nat)
  | unreg (b : BufId)
  | destroy (c : Nat)
deriving Repr, DecidableEq

/-- One operation step:

* `reg c b addr size` — `amdgpu_mn_register(bo, addr)` against context `c`
  (successful allocation): run the merge loop, set `bo->mn = rmn`, insert
  the merged node;
* `unreg b` — `amdgpu_mn_unregister(bo)` (amdgpu_mn.c:534-565): if
  `bo->mn == NULL` return with nothing changed; else delete `bo` from its
  node under the context found via `bo->mn`, clearing `bo->mn = NULL` and
  freeing the node if its list became empty;
* `destroy c` — `amdgpu_mn_destroy` (amdgpu_mn.c:77-102): for every node of
  the context clear each registered buffer's `bo->mn` to NULL
  (`bo->mn = NULL; list_del_init(...)`), free all nodes and remove the
  context from the registry. -/
def mnStep (w : MnWorld) : MnOp → MnWorld
  | MnOp.reg c b addr size =>
    match mnRegisterCore true (w.ctxs c) b addr (addr + size - 1) with
    | Except.ok objs2 =>
      { ctxs := fun x => if x = c then objs2 else w.ctxs x,
        boMn := fun x => if x = b then some c else w.boMn x }
    | Except.error _ => w
  | MnOp.unreg b =>
    match w.boMn b with
    | none => w
    | some c =>
      { ctxs := fun x => if x = c then unregObjects (w.ctxs c) b else w.ctxs x,
        boMn := fun x => if x = b then none else w.boMn x }
  | MnOp.destroy c =>
    { ctxs := fun x => if x = c then [] else w.ctxs x,
      boMn := fun x => if x ∈ ctxBos (w.ctxs c) then none else w.boMn x }

/-- The initial world: no contexts, no buffer tracked. -/
def emptyMnWorld : MnWorld :=
  { ctxs := fun _ => [], boMn := fun _ => none }

/-- Caller contract of one operation: `amdgpu_mn_register` is only called
for a buffer that is not currently registered (a registered `bo` is in
exactly one node's list at a time; its callers unregister first). -/
def wfOp (w : MnWorld) : MnOp → Bool
  | MnOp.reg _ b _ _ => (w.boMn b).isNone
  | MnOp.unreg _ => true
  | MnOp.destroy _ => true

/-- Well-formedness of an operation sequence from a given world. -/
def wfSeq : MnWorld → List MnOp → Bool
  | _, [] => true
  | w, op :: ops => wfOp w op && wfSeq (mnStep w op) ops

/-- The back-reference invariant: a tracked buffer (`bo->mn = some c`) is
registered on exactly one node of context `c` and nowhere else; an
untracked buffer (`bo->mn = none`) is registered nowhere. -/
def MnInv (w : MnWorld) : Prop :=
  ∀ b : BufId,
    (∀ c, w.boMn b = some c →
      ctxCount (w.ctxs c) b = 1 ∧ ∀ c2, c2 ≠ c → ctxCount (w.ctxs c2) b = 0) ∧
    (w.boMn b = none → ∀ c, ctxCount (w.ctxs c) b = 0)

theorem mem_ctxBos {objs : List MnNode} {b : BufId} :
    b ∈ ctxBos objs ↔ ∃ n ∈ objs, b ∈ n.bos := by
  simp [ctxBos, List.mem_flatten]

theorem ctxCount_pos_iff {objs : List MnNode} {b : BufId} :
    0 < ctxCount objs b ↔ b ∈ ctxBos objs := by
  unfold ctxCount
  rw [Nat.pos_iff_ne_zero, Ne, List.count_eq_zero]
  simp

/-- Count change of a successful registration: the new buffer is counted
once more, all others are unchanged (the merge only repartitions them). -/
theorem mnRegisterCore_ok_count {objs objs2 : List MnNode} {b : BufId}
    {addr e : Nat}
    (h : mnRegisterCore true objs b addr e = Except.ok objs2) (b' : BufId) :
    ctxCount objs2 b' = ctxCount objs b' + (if b' = b then 1 else 0) := by
  rw [mnRegisterCore_ok] at h
  have h2 := Except.ok.inj h
  rw [← h2, ctxCount_cons]
  have hc := mergeLoopF_count objs.length objs addr e [] false (Nat.le_refl _) b'
  simp only [List.count_nil, Nat.add_zero] at hc
  show (b :: (mergeLoop objs addr e [] false).2.2.2.1).count b'
      + ctxCount (mergeLoop objs addr e [] false).1 b'
    = ctxCount objs b' + (if b' = b then 1 else 0)
  unfold mergeLoop
  by_cases hbb : b' = b
  · subst hbb
    rw [List.count_cons_self, if_pos rfl]
    omega
  · rw [List.count_cons_of_ne (fun hcon => hbb (by simpa using hcon))]
    simp only [if_neg hbb]
    omega

theorem mnStep_reg_eq (w : MnWorld) (c : Nat) (b : BufId) (addr size : Nat) :
    ∃ objs2, mnRegisterCore true (w.ctxs c) b addr (addr + size - 1)
        = Except.ok objs2 ∧
      mnStep w (MnOp.reg c b addr size) =
        { ctxs := fun x => if x = c then objs2 else w.ctxs x,
          boMn := fun x => if x = b then some c else w.boMn x } := by
  refine ⟨_, mnRegisterCore_ok (w.ctxs c) b addr (addr + size - 1), ?_⟩
  simp only [mnStep, mnRegisterCore_ok]

/-- Every operation preserves the back-reference invariant (for `reg`, under
the caller contract that the buffer is not already registered). -/
theorem mnStep_inv {w : MnWorld} {op : MnOp} (hw : MnInv w)
    (hop : wfOp w op = true) : MnInv (mnStep w op) := by
  cases op with
  | reg c b addr size =>
    have hbnone : w.boMn b = none := by
      simpa [wfOp, Option.isNone_iff_eq_none] using hop
    obtain ⟨objs2, hok, heq⟩ := mnStep_reg_eq w c b addr size
    have hcnt := fun b' => mnRegisterCore_ok_count hok b'
    have hzero := (hw b).2 hbnone
    have hcb : ctxCount objs2 b = ctxCount (w.ctxs c) b + 1 := by
      rw [hcnt b, if_pos rfl]
    rw [heq]
    intro b'
    dsimp only
    constructor
    · intro c2 hsome
      by_cases hbb : b' = b
      · subst hbb
        rw [if_pos rfl] at hsome
        have hc2 : c = c2 := Option.some.inj hsome
        subst hc2
        constructor
        · rw [if_pos rfl, hcb, hzero c]
        · intro c3 hne
          rw [if_neg hne]
          exact hzero c3
      · have hcb2 : ctxCount objs2 b' = ctxCount (w.ctxs c) b' := by
          rw [hcnt b', if_neg hbb, Nat.add_zero]
        rw [if_neg hbb] at hsome
        have hm := (hw b').1 c2 hsome
        constructor
        · by_cases hcc : c2 = c
          · subst hcc
            rw [if_pos rfl, hcb2]
            exact hm.1
          · rw [if_neg hcc]
            exact hm.1
        · intro c3 hne
          by_cases hcc : c3 = c
          · subst hcc
            rw [if_pos rfl, hcb2]
            exact hm.2 c3 hne
          · rw [if_neg hcc]
            exact hm.2 c3 hne
    · intro hnone c3
      by_cases hbb : b' = b
      · subst hbb
        rw [if_pos rfl] at hnone
        exact absurd hnone (by simp)
      · have hcb2 : ctxCount objs2 b' = ctxCount (w.ctxs c) b' := by
          rw [hcnt b', if_neg hbb, Nat.add_zero]
        rw [if_neg hbb] at hnone
        have hz := (hw b').2 hnone
        by_cases hcc : c3 = c
        · subst hcc
          rw [if_pos rfl, hcb2]
          exact hz c3
        · rw [if_neg hcc]
          exact hz c3
  | unreg b =>
    cases hbm : w.boMn b with
    | none =>
      have heq : mnStep w (MnOp.unreg b) = w := by
        simp [mnStep, hbm]
      rw [heq]
      exact hw
    | some c =>
      have heq : mnStep w (MnOp.unreg b) =
          { ctxs := fun x =>
              if x = c then unregObjects (w.ctxs c) b else w.ctxs x,
            boMn := fun x => if x = b then none else w.boMn x } := by
        simp [mnStep, hbm]
      rw [heq]
      have hmain := (hw b).1 c hbm
      intro b'
      dsimp only
      constructor
      · intro c2 hsome
        by_cases hbb : b' = b
        · subst hbb
          rw [if_pos rfl] at hsome
          exact absurd hsome (by simp)
        · rw [if_neg hbb] at hsome
          have hm := (hw b').1 c2 hsome
          constructor
          · by_cases hcc : c2 = c
            · subst hcc
              rw [if_pos rfl, unregObjects_count_other _ b b' hbb]
              exact hm.1
            · rw [if_neg hcc]
              exact hm.1
          · intro c3 hne
            by_cases hcc : c3 = c
            · subst hcc
              rw [if_pos rfl, unregObjects_count_other _ b b' hbb]
              exact hm.2 c3 hne
            · rw [if_neg hcc]
              exact hm.2 c3 hne
      · intro hnone c3
        by_cases hbb : b' = b
        · subst hbb
          by_cases hcc : c3 = c
          · subst hcc
            rw [if_pos rfl]
            exact unregObjects_count_self _ b' (le_of_eq hmain.1)
          · rw [if_neg hcc]
            exact hmain.2 c3 hcc
        · rw [if_neg hbb] at hnone
          have hz := (hw b').2 hnone
          by_cases hcc : c3 = c
          · subst hcc
            rw [if_pos rfl, unregObjects_count_other _ b b' hbb]
            exact hz c3
          · rw [if_neg hcc]
            exact hz c3
  | destroy c =>
    intro b'
    dsimp only [mnStep]
    constructor
    · intro c2 hsome
      by_cases hmem : b' ∈ ctxBos (w.ctxs c)
      · rw [if_pos hmem] at hsome
        exact absurd hsome (by simp)
      · rw [if_neg hmem] at hsome
        have hm := (hw b').1 c2 hsome
        have hcc2 : c2 ≠ c := by
          intro hcon
          subst hcon
          exact hmem (ctxCount_pos_iff.mp (by rw [hm.1]; exact Nat.one_pos))
        constructor
        · rw [if_neg hcc2]
          exact hm.1
        · intro c3 hne
          by_cases hcc : c3 = c
          · subst hcc
            rw [if_pos rfl]
            rfl
          · rw [if_neg hcc]
            exact hm.2 c3 hne
    · intro hnone c3
      by_cases hmem : b' ∈ ctxBos (w.ctxs c)
      · have hpos : 0 < ctxCount (w.ctxs c) b' := ctxCount_pos_iff.mpr hmem
        cases hbm : w.boMn b' with
        | none =>
          exact absurd ((hw b').2 hbm c) (Nat.pos_iff_ne_zero.mp hpos)
        | some c4 =>
          have hm := (hw b').1 c4 hbm
          have hc4 : c4 = c := by
            by_contra hcon
            have h0 := hm.2 c (fun hcc => hcon hcc.symm)
            exact Nat.pos_iff_ne_zero.mp hpos h0
          by_cases hcc : c3 = c
          · subst hcc
            rw [if_pos rfl]
            rfl
          · rw [if_neg hcc]
            subst hc4
            exact hm.2 c3 hcc
      · rw [if_neg hmem] at hnone
        have hz := (hw b').2 hnone
        by_cases hcc : c3 = c
        · subst hcc
          rw [if_pos rfl]
          rfl
        · rw [if_neg hcc]
          exact hz c3

theorem emptyMnWorld_inv : MnInv emptyMnWorld := by
  intro b
  constructor
  · intro c hsome
    exact absurd hsome (by simp [emptyMnWorld])
  · intro _ c
    rfl

theorem wfSeq_inv :
    ∀ (ops : List MnOp) (w : MnWorld), MnInv w → wfSeq w ops = true →
      MnInv (ops.foldl mnStep w) := by
  intro ops
  induction ops with
  | nil => intro w hw _; exact hw
  | cons op ops ih =>
    intro w hw hseq
    rw [wfSeq, Bool.and_eq_true] at hseq
    exact ih (mnStep w op) (mnStep_inv hw hseq.1) hseq.2

/-- Claim C5: after every finite well-formed sequence of register, unregister
and context-destruction operations starting from the empty world, a buffer's
back-reference (`bo->mn`) is non-null exactly while the buffer is a member
of some node's registration list, and when non-null it names the unique
context owning that node. -/
theorem amdgpu_mn_back_reference_invariant (ops : List MnOp)
    (hwf : wfSeq emptyMnWorld ops = true) :
    ∀ b : BufId,
      (((ops.foldl mnStep emptyMnWorld).boMn b).isSome ↔
        ∃ c, ∃ n ∈ (ops.foldl mnStep emptyMnWorld).ctxs c, b ∈ n.bos) ∧
      (∀ c, (ops.foldl mnStep emptyMnWorld).boMn b = some c →
        (∃ n ∈ (ops.foldl mnStep emptyMnWorld).ctxs c, b ∈ n.bos) ∧
        (∀ c2, (∃ n ∈ (ops.foldl mnStep emptyMnWorld).ctxs c2, b ∈ n.bos) →
          c2 = c)) := by
  have hinv := wfSeq_inv ops emptyMnWorld emptyMnWorld_inv hwf
  intro b
  have hmem : ∀ c, (∃ n ∈ (ops.foldl mnStep emptyMnWorld).ctxs c, b ∈ n.bos) ↔
      0 < ctxCount ((ops.foldl mnStep emptyMnWorld).ctxs c) b := by
    intro c
    rw [ctxCount_pos_iff, mem_ctxBos]
  constructor
  · constructor
    · intro hsome
      match hbm : (ops.foldl mnStep emptyMnWorld).boMn b with
      | none => rw [hbm] at hsome; exact absurd hsome (by simp)
      | some c =>
        refine ⟨c, (hmem c).mpr ?_⟩
        rw [((hinv b).1 c hbm).1]
        exact Nat.one_pos
    · intro ⟨c, hex⟩
      match hbm : (ops.foldl mnStep emptyMnWorld).boMn b with
      | some c2 => simp
      | none =>
        have := (hinv b).2 hbm c
        rw [hmem c] at hex
        omega
  · intro c hbm
    have hm := (hinv b).1 c hbm
    constructor
    · exact (hmem c).mpr (by rw [hm.1]; exact Nat.one_pos)
    · intro c2 hex
      by_contra hne
      rw [hmem c2] at hex
      have := hm.2 c2 hne
      omega

/-- Witness for `amdgpu_mn_back_reference_invariant`: one registration of
buffer 1 at `[0, 4095]` on context 0; afterwards the back-reference is set
and buffer 1 sits in a node of context 0. -/
theorem amdgpu_mn_back_reference_invariant_witness :
    wfSeq emptyMnWorld [MnOp.reg 0 1 0 4096] = true ∧
    ((([MnOp.reg 0 1 0 4096].foldl mnStep emptyMnWorld).boMn 1).isSome ↔
      ∃ c, ∃ n ∈ ([MnOp.reg 0 1 0 4096].foldl mnStep emptyMnWorld).ctxs c,
        1 ∈ n.bos) :=
  ⟨by decide,
   ((amdgpu_mn_back_reference_invariant [MnOp.reg 0 1 0 4096] (by decide)) 1).1⟩

/-- Claim C7: `amdgpu_mn_unregister` removes the buffer from its node's
registration list, removes and frees the node exactly when that list
becomes empty, and clears the buffer's back-reference; it is a no-op when
the back-reference is NULL.  After register(10); register(11, overlapping);
unregister(10) the node survives (11 still registered on it) with 10's
back-reference cleared; after unregister(11) the context's node count is
zero. -/
theorem amdgpu_mn_unregister_spec :
    (∀ (w : MnWorld) (b : BufId), w.boMn b = none →
      mnStep w (MnOp.unreg b) = w) ∧
    (∀ (w : MnWorld) (b : BufId) (c : Nat), w.boMn b = some c →
      (mnStep w (MnOp.unreg b)).boMn b = none) ∧
    (([MnOp.reg 0 10 0 4096, MnOp.reg 0 11 2048 4096].foldl mnStep
        emptyMnWorld).ctxs 0
      = [{ start := 0, last := 6143, bos := [11, 10] }]) ∧
    (([MnOp.reg 0 10 0 4096, MnOp.reg 0 11 2048 4096,
        MnOp.unreg 10].foldl mnStep emptyMnWorld).ctxs 0
      = [{ start := 0, last := 6143, bos := [11] }]) ∧
    (([MnOp.reg 0 10 0 4096, MnOp.reg 0 11 2048 4096,
        MnOp.unreg 10].foldl mnStep emptyMnWorld).boMn 10 = none) ∧
    ((([MnOp.reg 0 10 0 4096, MnOp.reg 0 11 2048 4096, MnOp.unreg 10,
        MnOp.unreg 11].foldl mnStep emptyMnWorld).ctxs 0).length = 0) := by
  refine ⟨?_, ?_, by decide, by decide, by decide, by decide⟩
  · intro w b hb
    simp [mnStep, hb]
  · intro w b c hb
    simp [mnStep, hb]

/-- Witness for `amdgpu_mn_unregister_spec`: the no-op and the
back-reference-clearing conjuncts applied at concrete worlds. -/
theorem amdgpu_mn_unregister_spec_witness :
    emptyMnWorld.boMn 5 = none ∧
    mnStep emptyMnWorld (MnOp.unreg 5) = emptyMnWorld ∧
    ([MnOp.reg 0 10 0 4096].foldl mnStep emptyMnWorld).boMn 10 = some 0 ∧
    (mnStep ([MnOp.reg 0 10 0 4096].foldl mnStep emptyMnWorld)
      (MnOp.unreg 10)).boMn 10 = none :=
  ⟨rfl, amdgpu_mn_unregister_spec.1 emptyMnWorld 5 rfl, by decide,
   amdgpu_mn_unregister_spec.2.1 ([MnOp.reg 0 10 0 4096].foldl mnStep
      emptyMnWorld) 10 0 (by decide)⟩

theorem mergeLoop_found_false_extract {objs : List MnNode} {s e : Nat}
    {acc : List BufId}
    (h : (mergeLoop objs s e acc false).2.2.2.2 = false) :
    extractFirst (fun n => MnNode.overlaps n s e) objs = none := by
  cases hext : extractFirst (fun n => MnNode.overlaps n s e) objs with
  | none => rfl
  | some pr =>
    obtain ⟨n, rest⟩ := pr
    have hlen : objs.length = rest.length + 1 := (extractFirst_length hext).symm
    unfold mergeLoop at h
    rw [hlen, mergeLoopF_succ_some hext, mergeLoopF_found_true] at h
    exact absurd h (by simp)

/-- On this error path the merge loop ran zero iterations, so the tree at
the error return is the original tree, and no node overlapped the request. -/
theorem mnRegisterCore_error_state {allocOk : Bool} {objs : List MnNode}
    {b : BufId} {addr e : Nat} {err : Int × List MnNode}
    (h : mnRegisterCore allocOk objs b addr e = Except.error err) :
    err.2 = objs ∧ err.1 = -12 ∧
    extractFirst (fun n => MnNode.overlaps n addr e) objs = none := by
  simp only [mnRegisterCore] at h
  split at h
  · next hcond =>
    rw [Bool.and_eq_true, Bool.not_eq_eq_eq_not, Bool.not_true] at hcond
    have hfeq := mergeLoopF_found_false objs.length objs addr e [] false
      (by exact hcond.1)
    have herr := (Except.error.inj h).symm
    have hrest : (mergeLoop objs addr e [] false).1 = objs := by
      unfold mergeLoop
      rw [hfeq]
    refine ⟨?_, ?_, ?_⟩
    · rw [herr]
      exact hrest
    · rw [herr]
    · exact mergeLoop_found_false_extract hcond.1
  · exact absurd h (by simp)

/-- `amdgpu_mn_register(bo, addr)` in full (amdgpu_mn.c:476-525), against
context `c` of the world: `getOk` is the oracle for `amdgpu_mn_get`
(context lookup/creation; on failure `PTR_ERR(rmn)` is returned before
anything is touched), `allocOk` the oracle for the node `kmalloc`.  On the
`-ENOMEM` path the function returns with the context's tree as the merge
loop left it and without having set `bo->mn`.  Returns `(0, new world)` on
success. -/
def amdgpu_mn_register_full (getOk allocOk : Bool) (w : MnWorld) (c : Nat)
    (b : BufId) (addr size : Nat) : Int × MnWorld :=
  if !getOk then (-4, w)
  else
    match mnRegisterCore allocOk (w.ctxs c) b addr (addr + size - 1) with
    | Except.ok objs2 =>
      (0, { ctxs := fun x => if x = c then objs2 else w.ctxs x,
            boMn := fun x => if x = b then some c else w.boMn x })
    | Except.error err =>
      (err.1, { ctxs := fun x => if x = c then err.2 else w.ctxs x,
                boMn := w.boMn })

/-- Claim C10: `register_buffer` is atomic on failure — whenever it returns
an error (context lookup/creation failure or node allocation failure), the
target context's interval index, every node's registration list and the
buffer's back-reference are exactly as they were before the call; the
node-allocation failure path is reachable only when no existing node
overlapped the requested range. -/
theorem amdgpu_mn_register_atomic_on_failure (getOk allocOk : Bool)
    (w : MnWorld) (c : Nat) (b : BufId) (addr size : Nat)
    (hfail : (amdgpu_mn_register_full getOk allocOk w c b addr size).1 ≠ 0) :
    (amdgpu_mn_register_full getOk allocOk w c b addr size).2 = w ∧
    (∀ err, mnRegisterCore allocOk (w.ctxs c) b addr (addr + size - 1)
        = Except.error err →
      extractFirst (fun n => MnNode.overlaps n addr (addr + size - 1))
        (w.ctxs c) = none) := by
  constructor
  · unfold amdgpu_mn_register_full at hfail ⊢
    by_cases hget : getOk
    · simp only [hget, Bool.not_true, Bool.false_eq_true, if_false] at hfail ⊢
      cases hcore : mnRegisterCore allocOk (w.ctxs c) b addr (addr + size - 1)
        with
      | ok objs2 =>
        rw [hcore] at hfail
        exact absurd rfl hfail
      | error err =>
        have hst := mnRegisterCore_error_state hcore
        dsimp only
        have hcx : (fun x => if x = c then err.2 else w.ctxs x) = w.ctxs := by
          funext x
          by_cases hx : x = c
          · rw [if_pos hx, hst.1, hx]
          · rw [if_neg hx]
        rw [hcx]
    · simp only [hget]
      rfl
  · intro err herr
    exact (mnRegisterCore_error_state herr).2.2

/-- Witness for `amdgpu_mn_register_atomic_on_failure`: a node-allocation
failure (`kmalloc` oracle false) registering buffer 7 at `[0, 4095]` on an
empty world returns `-ENOMEM` and leaves the world untouched. -/
theorem amdgpu_mn_register_atomic_on_failure_witness :
    (amdgpu_mn_register_full true false emptyMnWorld 0 7 0 4096).1 ≠ 0 ∧
    (amdgpu_mn_register_full true false emptyMnWorld 0 7 0 4096).2
        = emptyMnWorld :=
  ⟨by decide,
   (amdgpu_mn_register_atomic_on_failure true false emptyMnWorld 0 7 0 4096
     (by decide)).1⟩
